import Mathlib

/-!
Verification development for the xe package manager
(src/rust/xe_cli/src/main.rs). The Rust functions of the resolution /
install pipeline and the content-addressed store are shallowly embedded
as executable Lean definitions; effectful code is modelled by explicit
state passing (an association-list file system keyed by path strings,
oracles for HTTP, the hash functions and the external resolver
subprocess). Machine integers are Nat; the hashing primitives (SHA-1
and SHA-256 come from external crates) are parameters, since the claims
only concern the byte streams fed to them and the equality tests on
their hex digests. Rayon parallel fan-outs are modelled by sequential
folds: the claims under study do not depend on the interleaving, and
the shared installed-set has a single mutex-guarded critical section in
the source.
-/

namespace Xe

/-- Code points with the Unicode White_Space property; models Rust
char::is_whitespace as used by str::trim. -/
def rustIsWhitespace (c : Char) : Bool :=
  decide (c.toNat = 0x09 ∨ c.toNat = 0x0a ∨ c.toNat = 0x0b ∨ c.toNat = 0x0c ∨
    c.toNat = 0x0d ∨ c.toNat = 0x20 ∨ c.toNat = 0x85 ∨ c.toNat = 0xa0 ∨
    c.toNat = 0x1680 ∨ (0x2000 ≤ c.toNat ∧ c.toNat ≤ 0x200a) ∨
    c.toNat = 0x2028 ∨ c.toNat = 0x2029 ∨ c.toNat = 0x202f ∨
    c.toNat = 0x205f ∨ c.toNat = 0x3000)

/-- Drop leading whitespace from a character list. -/
def dropWsL (l : List Char) : List Char := l.dropWhile rustIsWhitespace

/-- Drop trailing whitespace from a character list. -/
def dropWsR (l : List Char) : List Char := (dropWsL l.reverse).reverse

/-- Characters of a string with leading and trailing whitespace removed. -/
def trimChars (l : List Char) : List Char := dropWsL (dropWsR l)

/-- Models Rust str::trim: remove leading and trailing Unicode whitespace. -/
def rustTrim (s : String) : String := String.mk (trimChars s.data)

/-- Models Rust char::to_ascii_lowercase; also used to model
str::to_lowercase, which agrees with ASCII lowercasing on ASCII input
(all inputs relevant to the claims are ASCII). -/
def asciiLowerChar (c : Char) : Char :=
  if 65 ≤ c.toNat ∧ c.toNat ≤ 90 then Char.ofNat (c.toNat + 32) else c

/-- Models Rust str::to_lowercase on ASCII strings. -/
def asciiLower (s : String) : String := String.mk (s.data.map asciiLowerChar)

/-- Models Rust str::eq_ignore_ascii_case: equality after ASCII
lowercasing of both sides. -/
def eqIgnoreAsciiCase (a b : String) : Bool :=
  decide (a.data.map asciiLowerChar = b.data.map asciiLowerChar)

/-- Strict lexicographic order on character lists by code point; UTF-8
byte order coincides with code-point order, so this models Rust
str::cmp returning Less. -/
def lexLt : List Char → List Char → Bool
  | [], [] => false
  | [], _ :: _ => true
  | _ :: _, [] => false
  | a :: as, b :: bs =>
    if a.toNat < b.toNat then true
    else if b.toNat < a.toNat then false
    else lexLt as bs

/-- Models Rust String comparison returning Less. -/
def strLt (a b : String) : Bool := lexLt a.data b.data

/-- Models Rust String comparison returning Less or Equal. -/
def strLe (a b : String) : Bool := !(strLt b a)

/-- Stable insertion of an element into a list that is sorted by the
boolean relation le: the element goes before the first existing element
x with le a x. -/
def insertLe {α : Type} (le : α → α → Bool) (a : α) : List α → List α
  | [] => [a]
  | b :: l => if le a b then a :: b :: l else b :: insertLe le a l

/-- Stable insertion sort; models Rust slice::sort / sort_by (a stable
sort) for the total preorders used in this file. -/
def sortLe {α : Type} (le : α → α → Bool) : List α → List α
  | [] => []
  | b :: l => insertLe le b (sortLe le l)

/-- Boolean test that the first character list is a prefix of the second. -/
def charsLeadWith : List Char → List Char → Bool
  | [], _ => true
  | _ :: _, [] => false
  | a :: as, b :: bs => a == b && charsLeadWith as bs

/-- Boolean test that pre is a prefix of s (models str::starts_with). -/
def strLeadsWith (pre s : String) : Bool := charsLeadWith pre.data s.data

/-- Boolean test that suffix ends s (models str::ends_with). -/
def strEndsWith (suffix s : String) : Bool :=
  charsLeadWith suffix.data.reverse s.data.reverse

/-- Remove a leading occurrence of pat, if present. -/
def charsStripLead : List Char → List Char → Option (List Char)
  | [], l => some l
  | _ :: _, [] => none
  | p :: ps, c :: cs => if p = c then charsStripLead ps cs else none

/-- Split a character list on a separator character; like Rust
str::split, adjacent separators yield empty pieces. -/
def splitOnChar (sep : Char) : List Char → List (List Char)
  | [] => [[]]
  | c :: rest =>
    match splitOnChar sep rest with
    | [] => if c = sep then [[], []] else [[c]]
    | cur :: parts =>
      if c = sep then [] :: cur :: parts else (c :: cur) :: parts

/-- Join path components with the / separator (models PathBuf::join on
a relative multi-component path). -/
def joinPath : List String → String
  | [] => ""
  | [c] => c
  | c :: rest => c ++ "/" ++ joinPath rest

/-- Right-fold concatenation of a list of strings. -/
def concatStrings : List String → String
  | [] => ""
  | s :: rest => s ++ concatStrings rest

/-- UTF-8 encoding of one character, as Rust str::as_bytes yields. -/
def utf8Bytes (c : Char) : List Nat :=
  let n := c.toNat
  if n < 0x80 then [n]
  else if n < 0x800 then [0xc0 + n / 0x40, 0x80 + n % 0x40]
  else if n < 0x10000 then
    [0xe0 + n / 0x1000, 0x80 + (n / 0x40) % 0x40, 0x80 + n % 0x40]
  else
    [0xf0 + n / 0x40000, 0x80 + (n / 0x1000) % 0x40,
     0x80 + (n / 0x40) % 0x40, 0x80 + n % 0x40]

/-- UTF-8 bytes of a character list. -/
def bytesOfChars (l : List Char) : List Nat :=
  l.foldr (fun c acc => utf8Bytes c ++ acc) []

/-- UTF-8 bytes of a string; models Rust str::as_bytes. -/
def strBytes (s : String) : List Nat := bytesOfChars s.data

/-- Models lines 2384-2392 of main.rs, fn normalize_requirements: trim
each requirement, drop the ones that are empty after trimming, sort.
(The source does not deduplicate.) -/
def normalize_requirements (reqs : List String) : List String :=
  sortLe strLe ((reqs.map rustTrim).filter (fun r => r != ""))

/-- Byte stream fed to the SHA-1 hasher by fn solve_key (lines
2394-2403 of main.rs): the interpreter version, a pipe byte (124), then
each requirement followed by a pipe byte, accumulated left to right
exactly like the hasher.update calls. -/
def solveKeyBytes (v : String) (reqs : List String) : List Nat :=
  reqs.foldl (fun acc r => acc ++ strBytes r ++ [124]) (strBytes v ++ [124])

/-- Models fn solve_key: hex-encoded SHA-1 of solveKeyBytes. The SHA-1
implementation and its lowercase hex encoding come from external crates
(sha1, hex) and are passed as the parameter sha1hex. -/
def solve_key (sha1hex : List Nat → String) (v : String) (reqs : List String) : String :=
  sha1hex (solveKeyBytes v reqs)

/-- Package record of main.rs (struct Package, lines 2189-2199). -/
structure Package where
  name : String
  version : String
  download_url : String
  hash : String
deriving DecidableEq

/-- Deduplication key used by fn dedupe_packages (line 2408):
lowercased name, two equals signs, version. -/
def pkgDedupKey (p : Package) : String := asciiLower p.name ++ "==" ++ p.version

/-- Insertion into a key-sorted association list, replacing an equal
key; models BTreeMap::insert for String keys (ordered by byte-wise
comparison, which equals code-point order). -/
def btInsert (k : String) (v : Package) :
    List (String × Package) → List (String × Package)
  | [] => [(k, v)]
  | (k2, v2) :: rest =>
    if strLt k k2 then (k, v) :: (k2, v2) :: rest
    else if k = k2 then (k, v) :: rest
    else (k2, v2) :: btInsert k v rest

/-- Models fn dedupe_packages (lines 2405-2412): fold the packages into
a BTreeMap keyed by pkgDedupKey (later entries win) and return the
values in key order. -/
def dedupe_packages (pkgs : List Package) : List Package :=
  (pkgs.foldl (fun m p => btInsert (pkgDedupKey p) p m) []).map Prod.snd

/-- Models fn normalize_package_identity (lines 2414-2419): trim,
lowercase, then map hyphen and dot to underscore. -/
def normalize_package_identity (name : String) : String :=
  String.mk ((rustTrim name).data.map (fun c =>
    let c2 := asciiLowerChar c
    if c2 = '-' then '_' else if c2 = '.' then '_' else c2))

/-- Models fn package_identity_key (lines 2421-2423). -/
def package_identity_key (name version : String) : String :=
  normalize_package_identity name ++ "==" ++ rustTrim version

/-- Name order used for the download plan and the returned package list
(install sorts by Package.name with String::cmp). -/
def pkgNameLe (p q : Package) : Bool := strLe p.name q.name

/-- One entry of a ZIP archive as the zip crate presents it: the
declared path, the decompressed bytes, and whether the entry is a
symbolic link. The extraction code of main.rs never inspects the
symlink flag; it is carried here so that this fact is expressible. -/
structure ZipEntry where
  entryName : String
  entryData : List Nat
  isSymlink : Bool
deriving DecidableEq

/-- Contents of a file in the modelled file system: either raw bytes or
bytes that parse as a ZIP archive with the given entries (ZIP parsing
itself is done by the external zip crate; a raw file is one it rejects). -/
inductive FileData where
  | raw (bytes : List Nat)
  | zipData (entries : List ZipEntry)
deriving DecidableEq

/-- Association-list lookup keyed by strings. -/
def assocGet {α : Type} : List (String × α) → String → Option α
  | [], _ => none
  | (k, v) :: rest, key => if key = k then some v else assocGet rest key

/-- Association-list write (create or truncating overwrite, like
File::create). -/
def assocSet {α : Type} : List (String × α) → String → α → List (String × α)
  | [], key, v => [(key, v)]
  | (k, w) :: rest, key, v =>
    if key = k then (key, v) :: rest else (k, w) :: assocSet rest key v

/-- Association-list removal (models fs::remove_file). -/
def assocRemove {α : Type} : List (String × α) → String → List (String × α)
  | [], _ => []
  | (k, w) :: rest, key =>
    if key = k then assocRemove rest key else (k, w) :: assocRemove rest key

/-- Modelled file system: paths to file contents. Directories are
implicit (create_dir_all is a no-op in the model; a directory exists
when some file lies beneath it). -/
abbrev Files := List (String × FileData)

/-- Models Path::exists for files. -/
def fsExists (fs : Files) (p : String) : Bool := (assocGet fs p).isSome

/-- Error kinds surfaced by the modelled core; each constructor carries
the data interpolated into the corresponding anyhow message in main.rs. -/
inductive XeError where
  | checksumMismatch (expected actual : String)
  | httpError (url : String)
  | downloadFailed (status : Nat)
  | unsafeWheelEntry (entryName : String)
  | corruptArchive (path : String)
  | blobMissing (path : String)
  | resolverFailed (requirement : String)
deriving DecidableEq

/-- Decidable equality for Except values, used to evaluate the model
at concrete inputs. -/
instance {ε α : Type} [DecidableEq ε] [DecidableEq α] :
    DecidableEq (Except ε α) := fun a b => by
  cases a with
  | ok x =>
    cases b with
    | ok y =>
      exact decidable_of_iff (x = y) ⟨fun h => by rw [h], fun h => by injection h⟩
    | error f => exact Decidable.isFalse (fun h => by injection h)
  | error e =>
    cases b with
    | ok y => exact Decidable.isFalse (fun h => by injection h)
    | error f =>
      exact decidable_of_iff (e = f) ⟨fun h => by rw [h], fun h => by injection h⟩

/-- Models Cas::blob_path (lines 2689-2692): two-hex-character sharding
under cas/blobs, with prefix 00 for hashes shorter than two characters. -/
def blob_path (root sha : String) : String :=
  let pre := if 2 ≤ sha.data.length then String.mk (sha.data.take 2) else "00"
  root ++ "/cas/blobs/" ++ pre ++ "/" ++ sha ++ ".whl"

/-- Directory prefix of the blobs namespace of a CAS root. -/
def blobsNamespace (root : String) : String := root ++ "/cas/blobs/"

/-- Models reqwest StatusCode::is_success: 2xx. -/
def statusIsSuccess (status : Nat) : Bool := decide (200 ≤ status ∧ status ≤ 299)

/-- Models Cas::store_blob_from_url (lines 2595-2660 of main.rs).
sha256 is the streaming SHA-256 of the whole body with hex encoding;
http models the blocking GET (none is a transport error); tmpName is
the unique temp file name produced by tempfile_path_in. The rename and
its copy-and-delete fallback have the same net effect on the file map. -/
def store_blob_from_url (sha256 : FileData → String)
    (http : String → Option (Nat × FileData)) (root tmpName : String)
    (fs : Files) (url expected_sha256 : String) : Files × Except XeError String :=
  if (rustTrim expected_sha256 != "") && fsExists fs (blob_path root expected_sha256) then
    (fs, Except.ok (blob_path root expected_sha256))
  else
    match http url with
    | none => (fs, Except.error (XeError.httpError url))
    | some (status, body) =>
      if !(statusIsSuccess status) then
        (fs, Except.error (XeError.downloadFailed status))
      else
        let tmp := root ++ "/" ++ tmpName
        let fs1 := assocSet fs tmp body
        let actual := sha256 body
        if (rustTrim expected_sha256 != "") && !(eqIgnoreAsciiCase expected_sha256 actual) then
          (assocRemove fs1 tmp, Except.error (XeError.checksumMismatch expected_sha256 actual))
        else
          let target := blob_path root actual
          if fsExists fs1 target then (assocRemove fs1 tmp, Except.ok target)
          else (assocSet (assocRemove fs1 tmp) target body, Except.ok target)

/-- Resolution graph persisted by the installer (struct SolveGraph). -/
structure SolveGraph where
  python_version : String
  requirements : List String
  packages : List Package
deriving DecidableEq

/-- State shared through one install run: the solutions table of the
CAS (solution files are written and read back through the same serde
types, so they are stored structurally) and the file map (blobs, temp
files and the site directory). -/
structure World where
  solutions : List (String × SolveGraph)
  files : Files
deriving DecidableEq

/-- Models Cas::load_solution (lines 2671-2679): the parsed graph, or
none when the file does not exist. -/
def load_solution (w : World) (key : String) : Option SolveGraph :=
  assocGet w.solutions key

/-- Models Cas::save_solution (lines 2662-2669): truncating write of
the serialized graph. -/
def save_solution (w : World) (key : String) (g : SolveGraph) : World :=
  World.mk (assocSet w.solutions key g) w.files

/-- Depth-counting component walk of ZipFile::enclosed_name: skip
current-directory and empty components, push normal components, pop on
a parent-directory component and refuse when the walk would climb
above the root. Balanced interior parent components such as a/../b are
accepted, exactly as in the zip crate. The crate returns the original
path and the operating system resolves the accepted interior parent
components while the file is created under the target directory; the
model returns the resolved components directly, which accepts exactly
the same entry names and names the paths where the files land. -/
def enclosedWalk : List (List Char) → List String → Option (List String)
  | [], stack => some stack.reverse
  | c :: rest, stack =>
    if c = [] ∨ c = ['.'] then enclosedWalk rest stack
    else if c = ['.', '.'] then
      match stack with
      | [] => none
      | _ :: stack2 => enclosedWalk rest stack2
    else enclosedWalk rest (String.mk c :: stack)

/-- Models ZipFile::enclosed_name: none for names containing NUL, for
absolute paths (a root component), and for parent-directory components
that escape above the target root; otherwise the resolved relative
components. -/
def enclosedName (entryName : String) : Option (List String) :=
  if entryName.data.contains (Char.ofNat 0) then none
  else if strLeadsWith "/" entryName then none
  else enclosedWalk (splitOnChar '/' entryName.data) []

/-- Entry loop of fn install_wheel_blob (lines 2457-2476): refuse an
entry without an enclosed name when it is reached; create directories
for entries whose name ends in a slash (no-op on the file map); write
all other entries with a truncating create. The symlink flag is never
consulted, exactly as in the source. -/
def extractEntries (site : String) : List ZipEntry → Files → Files × Except XeError Unit
  | [], fs => (fs, Except.ok ())
  | e :: rest, fs =>
    match enclosedName e.entryName with
    | none => (fs, Except.error (XeError.unsafeWheelEntry e.entryName))
    | some comps =>
      if strEndsWith "/" e.entryName then extractEntries site rest fs
      else
        extractEntries site rest
          (assocSet fs (site ++ "/" ++ joinPath comps) (FileData.raw e.entryData))

/-- Models fn install_wheel_blob (lines 2452-2478): open the blob,
parse it as a ZIP archive, extract entry by entry into the site
directory. -/
def install_wheel_blob (fs : Files) (blobPath site : String) :
    Files × Except XeError Unit :=
  match assocGet fs blobPath with
  | none => (fs, Except.error (XeError.blobMissing blobPath))
  | some (FileData.raw _) => (fs, Except.error (XeError.corruptArchive blobPath))
  | some (FileData.zipData entries) => extractEntries site entries fs

/-- Immediate child directories of the site directory in the file map
(a child is a directory when some file lies strictly beneath it);
models the read_dir plus file_type().is_dir() scan. -/
def childDirs (fs : Files) (site : String) : List String :=
  (fs.filterMap (fun pr =>
    match charsStripLead (site ++ "/").data pr.1.data with
    | none => none
    | some rest =>
      match splitOnChar '/' rest with
      | [] => none
      | [_] => none
      | c :: _ :: _ => some (String.mk c))).dedup

/-- Remove a leading occurrence of pat repeatedly, with fuel. -/
def stripLeadRepeat (pat : List Char) : Nat → List Char → List Char
  | 0, l => l
  | Nat.succ n, l =>
    match charsStripLead pat l with
    | some rest => if pat = [] then l else stripLeadRepeat pat n rest
    | none => l

/-- Models Rust str::trim_end_matches: repeatedly strip the suffix. -/
def trimEndMatches (s suffix : String) : String :=
  String.mk ((stripLeadRepeat suffix.data.reverse s.data.length s.data.reverse).reverse)

/-- Split a character list at its last hyphen; models str::rfind with
the two slices around the found index. -/
def splitLastHyphenAux : List Char → Option (List Char × List Char)
  | [] => none
  | c :: rest =>
    match splitLastHyphenAux rest with
    | some (l, r) => some (c :: l, r)
    | none => if c = '-' then some ([], rest) else none

/-- Models fn installed_package_key_set (lines 2425-2450): scan the
immediate child directories of the site directory whose lowercased name
ends in .dist-info, strip that suffix from the original name, split at
the last hyphen (requiring both sides non-empty), and build the
identity key. -/
def installed_package_key_set (fs : Files) (site : String) : List String :=
  (childDirs fs site).filterMap (fun d =>
    if strEndsWith ".dist-info" (asciiLower d) then
      match splitLastHyphenAux (trimEndMatches d ".dist-info").data with
      | some (before, after) =>
        if before != [] && after != [] then
          some (package_identity_key (String.mk before) (String.mk after))
        else none
      | none => none
    else none)

/-- External collaborators of one install run: SHA-1 and SHA-256 with
hex encoding, the HTTP client, the pip dry-run resolver subprocess
(fn resolve_requirement, which is pure fork/exec and report parsing),
and the unique temp-file name generator. -/
structure InstallEnv where
  sha1hex : List Nat → String
  sha256 : FileData → String
  http : String → Option (Nat × FileData)
  resolver : String → Except XeError (List Package)
  tmpNames : Nat → String

/-- Observable outcome of one install run: the final state, the
requirements handed to the resolver, the graph the run worked from, the
extraction target directory, and the returned package list or error. -/
structure InstallResult where
  world : World
  resolverCalls : List String
  usedGraph : Option SolveGraph
  targetSite : Option String
  result : Except XeError (List Package)

/-- Resolver fan-out (lines 2326-2332): resolve every requirement and
flatten; any failure aborts the batch. -/
def resolveAll (resolver : String → Except XeError (List Package)) :
    List String → Except XeError (List Package)
  | [] => Except.ok []
  | r :: rest =>
    match resolver r with
    | Except.error e => Except.error e
    | Except.ok ps =>
      match resolveAll resolver rest with
      | Except.error e => Except.error e
      | Except.ok rest2 => Except.ok (ps ++ rest2)

/-- Extraction fan-out of Installer::install (lines 2356-2377): for
each planned package, skip when its identity key is already installed
or its download URL is blank after trimming; otherwise store the blob
and extract it, then record the identity key. -/
def installLoop (env : InstallEnv) (root target : String) :
    List Package → Files → List String → Nat → Files × Except XeError Unit
  | [], fs, _, _ => (fs, Except.ok ())
  | p :: rest, fs, installed, n =>
    if installed.contains (package_identity_key p.name p.version) then
      installLoop env root target rest fs installed n
    else if rustTrim p.download_url = "" then
      installLoop env root target rest fs installed n
    else
      match store_blob_from_url env.sha256 env.http root (env.tmpNames n) fs
          p.download_url p.hash with
      | (fs1, Except.error e) => (fs1, Except.error e)
      | (fs1, Except.ok blob) =>
        match install_wheel_blob fs1 blob target with
        | (fs2, Except.error e) => (fs2, Except.error e)
        | (fs2, Except.ok _) =>
          installLoop env root target rest fs2
            (package_identity_key p.name p.version :: installed) (n + 1)

/-- Final value of Installer::install: the graph packages sorted by
name on success, the extraction error otherwise. -/
def finishResult (g : SolveGraph) (r : Except XeError Unit) :
    Except XeError (List Package) :=
  match r with
  | Except.ok _ => Except.ok (sortLe pkgNameLe g.packages)
  | Except.error e => Except.error e

/-- Shared tail of Installer::install once a graph is in hand (lines
2344-2380): sort the download plan by name, pick the extraction target
(substituting project_dir/xe/site-packages for an empty site argument),
scan the installed set, run the extraction fan-out, and return the
graph packages sorted by name. -/
def installFinish (env : InstallEnv) (root : String) (w : World)
    (calls : List String) (g : SolveGraph) (projectDir siteArg : String) :
    InstallResult :=
  let plan := sortLe pkgNameLe g.packages
  let target := if siteArg = "" then projectDir ++ "/xe/site-packages" else siteArg
  let installed := installed_package_key_set w.files target
  let fr := installLoop env root target plan w.files installed 0
  InstallResult.mk (World.mk w.solutions fr.1) calls (some g) (some target)
    (finishResult g fr.2)

/-- Models Installer::install (lines 2303-2381): normalize the
requirements (empty set returns immediately), compute the solve key,
use the memoized graph on a hit, otherwise fan out resolution, dedupe,
persist the graph, then fetch and extract. -/
def install (env : InstallEnv) (root pythonVersion : String) (w : World)
    (requirements : List String) (projectDir siteArg : String) : InstallResult :=
  let reqs := normalize_requirements requirements
  if reqs = [] then InstallResult.mk w [] none none (Except.ok [])
  else
    let cacheKey := solve_key env.sha1hex pythonVersion reqs
    match load_solution w cacheKey with
    | some cached => installFinish env root w [] cached projectDir siteArg
    | none =>
      match resolveAll env.resolver reqs with
      | Except.error e => InstallResult.mk w reqs none none (Except.error e)
      | Except.ok flat =>
        let g := SolveGraph.mk pythonVersion reqs (dedupe_packages flat)
        installFinish env root (save_solution w cacheKey g) reqs g projectDir siteArg

/-- Project manifest (struct Config, lines 1245-1291 of main.rs). -/
structure Config where
  project_name : String
  python_version : String
  deps : List (String × String)
  cache_mode : String
  cache_global_dir : String
  venv_name : String
  autovenv : Bool
deriving DecidableEq

/-- Models fn default_python_version (lines 1350-1352). -/
def default_python_version : String := "3.12"

/-- Models fn default_cache_mode (lines 1354-1356). -/
def default_cache_mode : String := "global-cas"

/-- Models Config::normalize (lines 1330-1347): rewrite blank fields to
their defaults. projectDirLeaf models project_dir.file_name() (none
when the path has no final component, replaced by the literal
project); cacheDir models xe_cache_dir(), which depends on the user
environment. -/
def Config.normalize (projectDirLeaf : Option String) (cacheDir : String)
    (cfg : Config) : Config :=
  Config.mk
    (if rustTrim cfg.project_name = "" then projectDirLeaf.getD "project"
     else cfg.project_name)
    (if rustTrim cfg.python_version = "" then default_python_version
     else cfg.python_version)
    cfg.deps
    (if rustTrim cfg.cache_mode = "" then default_cache_mode else cfg.cache_mode)
    (if rustTrim cfg.cache_global_dir = "" then cacheDir else cfg.cache_global_dir)
    cfg.venv_name
    cfg.autovenv

/-- Models fn save_project (lines 1377-1384): normalize, then encode
and write; the returned record is exactly what is serialized to disk. -/
def save_project (projectDirLeaf : Option String) (cacheDir : String)
    (cfg : Config) : Config :=
  Config.normalize projectDirLeaf cacheDir cfg

/-- ASCII digit test. -/
def isAsciiDigit (c : Char) : Bool := decide (48 ≤ c.toNat ∧ c.toNat ≤ 57)

/-- Numeric value of a digit list. -/
def digitsToNat (l : List Char) : Nat :=
  l.foldl (fun acc c => acc * 10 + (c.toNat - 48)) 0

/-- Models str::parse::<u32>: an optional leading plus sign, then one
or more ASCII digits, rejecting values that overflow u32. -/
def parseU32 (s : String) : Option Nat :=
  let digits :=
    match s.data with
    | '+' :: rest => rest
    | l => l
  if digits = [] then none
  else if digits.all isAsciiDigit then
    let v := digitsToNat digits
    if v < 4294967296 then some v else none
  else none

/-- Models fn parse_major_minor (lines 1832-1844): split on dots,
require at least two pieces, parse the first two as u32. -/
def parse_major_minor (version : String) : Option (Nat × Nat) :=
  match (splitOnChar '.' version.data).map String.mk with
  | p0 :: p1 :: _ =>
    match parseU32 p0, parseU32 p1 with
    | some a, some b => some (a, b)
    | _, _ => none
  | _ => none

/-- Models fn normalize_venv_name (lines 1558-1568): trim, lowercase,
map spaces and underscores to hyphens, keep only ASCII lowercase
letters, digits and hyphens, then trim hyphens from both ends. -/
def normalize_venv_name (name : String) : String :=
  let n := (asciiLower (rustTrim name)).data.map
    (fun c => if c = ' ' ∨ c = '_' then '-' else c)
  let kept := n.filter (fun c =>
    decide ((97 ≤ c.toNat ∧ c.toNat ≤ 122) ∨ (48 ≤ c.toNat ∧ c.toNat ≤ 57) ∨ c = '-'))
  String.mk (((kept.dropWhile (fun c => c == '-')).reverse.dropWhile
    (fun c => c == '-')).reverse)

/-- Models lines 1486-1504 of ensure_runtime_for_project: the pure
environment-name selection step. Returns the selected name, the
possibly updated manifest, and the config_changed flag that
ensure_runtime_for_project later returns unchanged in its
RuntimeResult. wdLeaf models wd.file_name(). The interpreter and
environment provisioning around this step are subprocess calls and do
not touch the manifest. -/
def ensure_runtime_venv_selection (cfg : Config) (wdLeaf : Option String) :
    String × Config × Bool :=
  let venv0 := rustTrim cfg.venv_name
  if venv0 = "" ∧ cfg.autovenv = true then
    let base0 := rustTrim cfg.project_name
    let base1 := if base0 = "" then wdLeaf.getD "default" else base0
    let slug0 := normalize_venv_name base1
    let slug1 := if slug0 = "" then "default" else slug0
    let v := "auto-" ++ slug1
    (v, Config.mk cfg.project_name cfg.python_version cfg.deps cfg.cache_mode
      cfg.cache_global_dir v cfg.autovenv, true)
  else (venv0, cfg, false)

/-- Concrete install environment used to evaluate the model at the
solve key K: its resolver returns a fixed two-package list whose names
differ only in case. -/
def sampleResolverEnv : InstallEnv :=
  InstallEnv.mk (fun _ => "K") (fun _ => "") (fun _ => none)
    (fun _ => Except.ok [Package.mk "B" "1" "" "", Package.mk "a" "1" "" ""])
    (fun _ => "t")

/-- Concrete install environment whose resolver always fails; used to
observe that the memoized path never consults the resolver. -/
def failingResolverEnv : InstallEnv :=
  InstallEnv.mk (fun _ => "K") (fun _ => "") (fun _ => none)
    (fun r => Except.error (XeError.resolverFailed r)) (fun _ => "t")

/-- Concrete install environment whose resolver resolves every
requirement to no packages. -/
def emptyResolverEnv : InstallEnv :=
  InstallEnv.mk (fun _ => "K") (fun _ => "") (fun _ => none)
    (fun _ => Except.ok []) (fun _ => "t")

/-- Whitespace padding relation: padded is r with (possibly empty)
all-whitespace strings attached on both sides. -/
def IsWsPad (r padded : String) : Prop :=
  ∃ a b : String, (∀ c ∈ a.data, rustIsWhitespace c = true) ∧
    (∀ c ∈ b.data, rustIsWhitespace c = true) ∧ padded = a ++ r ++ b

/-! ## General lemmas -/

theorem lexLt_irrefl : ∀ l : List Char, lexLt l l = false := by
  intro l
  induction l with
  | nil => rfl
  | cons a as ih => simp [lexLt, ih]

theorem lexLt_asymm : ∀ a b : List Char, lexLt a b = true → lexLt b a = false := by
  intro a
  induction a with
  | nil =>
    intro b h
    cases b with
    | nil => simp [lexLt] at h
    | cons x xs => rfl
  | cons x xs ih =>
    intro b h
    cases b with
    | nil => simp [lexLt] at h
    | cons y ys =>
      simp only [lexLt] at h ⊢
      by_cases hxy : x.toNat < y.toNat
      · have : ¬ y.toNat < x.toNat := by omega
        simp [hxy, this]
      · by_cases hyx : y.toNat < x.toNat
        · simp [hxy, hyx] at h
        · simp only [hxy, hyx, if_false] at h ⊢
          simp [hxy, hyx, ih ys h]

theorem lexLt_eq_of_not : ∀ a b : List Char,
    lexLt a b = false → lexLt b a = false → a = b := by
  intro a
  induction a with
  | nil =>
    intro b h1 _
    cases b with
    | nil => rfl
    | cons y ys => simp [lexLt] at h1
  | cons x xs ih =>
    intro b h1 h2
    cases b with
    | nil => simp [lexLt] at h2
    | cons y ys =>
      simp only [lexLt] at h1 h2
      by_cases hxy : x.toNat < y.toNat
      · simp [hxy] at h1
      · by_cases hyx : y.toNat < x.toNat
        · simp [hyx, hxy] at h2
        · simp only [hxy, hyx, if_false] at h1 h2
          have hn : x.toNat = y.toNat := by omega
          have hx : x = y := Char.ext (UInt32.toNat.inj hn)
          subst hx
          simp [ih ys h1 h2]

theorem lexLt_trans : ∀ a b c : List Char,
    lexLt a b = true → lexLt b c = true → lexLt a c = true := by
  intro a
  induction a with
  | nil =>
    intro b c hab hbc
    cases c with
    | nil =>
      cases b with
      | nil => simp [lexLt] at hab
      | cons y ys => simp [lexLt] at hbc
    | cons z zs => rfl
  | cons x xs ih =>
    intro b c hab hbc
    cases b with
    | nil => simp [lexLt] at hab
    | cons y ys =>
      cases c with
      | nil => simp [lexLt] at hbc
      | cons z zs =>
        simp only [lexLt] at hab hbc ⊢
        by_cases hxy : x.toNat < y.toNat
        · by_cases hyz : y.toNat < z.toNat
          · have : x.toNat < z.toNat := by omega
            simp [this]
          · by_cases hzy : z.toNat < y.toNat
            · simp [hyz, hzy] at hbc
            · have : x.toNat < z.toNat := by omega
              simp [this]
        · by_cases hyx : y.toNat < x.toNat
          · simp [hxy, hyx] at hab
          · simp only [hxy, hyx, if_false] at hab
            by_cases hyz : y.toNat < z.toNat
            · have : x.toNat < z.toNat := by omega
              simp [this]
            · by_cases hzy : z.toNat < y.toNat
              · simp [hyz, hzy] at hbc
              · simp only [hyz, hzy, if_false] at hbc
                have hxz : ¬ x.toNat < z.toNat := by omega
                have hzx : ¬ z.toNat < x.toNat := by omega
                simp only [hxz, hzx, if_false]
                simp [ih ys zs hab hbc]

theorem string_eq_of_data_eq {a b : String} (h : a.data = b.data) : a = b := by
  cases a
  cases b
  exact congrArg String.mk h

theorem strLe_total : ∀ a b : String, strLe a b = false → strLe b a = true := by
  intro a b h
  simp only [strLe, Bool.not_eq_false'] at h
  simp only [strLe, Bool.not_eq_true']
  exact lexLt_asymm _ _ h

theorem strLe_antisymm : ∀ a b : String,
    strLe a b = true → strLe b a = true → a = b := by
  intro a b h1 h2
  simp only [strLe, Bool.not_eq_true'] at h1 h2
  exact string_eq_of_data_eq (lexLt_eq_of_not _ _ h2 h1)

theorem strLe_trans : ∀ a b c : String,
    strLe a b = true → strLe b c = true → strLe a c = true := by
  intro a b c h1 h2
  simp only [strLe, strLt, Bool.not_eq_true'] at h1 h2 ⊢
  cases hca : lexLt c.data a.data with
  | false => rfl
  | true =>
    exfalso
    cases hab : lexLt a.data b.data with
    | true =>
      have hcb := lexLt_trans _ _ _ hca hab
      rw [hcb] at h2
      exact Bool.true_eq_false.mp h2
    | false =>
      have hdata : a.data = b.data := lexLt_eq_of_not _ _ hab h1
      rw [← hdata, hca] at h2
      exact Bool.true_eq_false.mp h2

theorem insertLe_perm {α : Type} (le : α → α → Bool) (a : α) :
    ∀ l : List α, List.Perm (insertLe le a l) (a :: l) := by
  intro l
  induction l with
  | nil => exact List.Perm.refl _
  | cons b t ih =>
    simp only [insertLe]
    cases h : le a b with
    | true => simp
    | false =>
      simp only [Bool.false_eq_true, if_false]
      exact List.Perm.trans (List.Perm.cons b ih) (List.Perm.swap a b t)

theorem sortLe_perm {α : Type} (le : α → α → Bool) :
    ∀ l : List α, List.Perm (sortLe le l) l := by
  intro l
  induction l with
  | nil => exact List.Perm.refl _
  | cons b t ih =>
    simp only [sortLe]
    exact List.Perm.trans (insertLe_perm le b _) (List.Perm.cons b ih)

theorem insertLe_pairwise {α : Type} (le : α → α → Bool)
    (htot : ∀ a b : α, le a b = false → le b a = true)
    (htrans : ∀ a b c : α, le a b = true → le b c = true → le a c = true)
    (a : α) : ∀ l : List α, l.Pairwise (fun x y => le x y = true) →
      (insertLe le a l).Pairwise (fun x y => le x y = true) := by
  intro l
  induction l with
  | nil => intro _; simp [insertLe]
  | cons b t ih =>
    intro hp
    rw [List.pairwise_cons] at hp
    obtain ⟨hb, ht⟩ := hp
    simp only [insertLe]
    cases h : le a b with
    | true =>
      simp only [if_true]
      rw [List.pairwise_cons]
      constructor
      · intro x hx
        rcases List.mem_cons.mp hx with hx2 | hx2
        · rw [hx2]; exact h
        · exact htrans a b x h (hb x hx2)
      · rw [List.pairwise_cons]
        exact ⟨hb, ht⟩
    | false =>
      simp only [Bool.false_eq_true, if_false]
      rw [List.pairwise_cons]
      constructor
      · intro x hx
        have hmem : x ∈ a :: t := (insertLe_perm le a t).mem_iff.mp hx
        rcases List.mem_cons.mp hmem with hx2 | hx2
        · rw [hx2]
          exact htot a b h
        · exact hb x hx2
      · exact ih ht

theorem sortLe_pairwise {α : Type} (le : α → α → Bool)
    (htot : ∀ a b : α, le a b = false → le b a = true)
    (htrans : ∀ a b c : α, le a b = true → le b c = true → le a c = true) :
    ∀ l : List α, (sortLe le l).Pairwise (fun x y => le x y = true) := by
  intro l
  induction l with
  | nil => simp [sortLe]
  | cons b t ih =>
    simp only [sortLe]
    exact insertLe_pairwise le htot htrans b _ ih

theorem sortLe_eq_of_perm {α : Type} (le : α → α → Bool)
    (htot : ∀ a b : α, le a b = false → le b a = true)
    (htrans : ∀ a b c : α, le a b = true → le b c = true → le a c = true)
    (hanti : ∀ a b : α, le a b = true → le b a = true → a = b)
    (l₁ l₂ : List α) (hp : List.Perm l₁ l₂) : sortLe le l₁ = sortLe le l₂ := by
  haveI : IsAntisymm α (fun x y => le x y = true) := ⟨hanti⟩
  have hperm : List.Perm (sortLe le l₁) (sortLe le l₂) :=
    ((sortLe_perm le l₁).trans hp).trans (sortLe_perm le l₂).symm
  exact List.eq_of_perm_of_sorted hperm
    (sortLe_pairwise le htot htrans l₁) (sortLe_pairwise le htot htrans l₂)

theorem str_data_append (a b : String) : (a ++ b).data = a.data ++ b.data := by
  cases a
  cases b
  rfl

theorem dropWsL_ws_append (a l : List Char)
    (h : ∀ c ∈ a, rustIsWhitespace c = true) : dropWsL (a ++ l) = dropWsL l := by
  induction a with
  | nil => rfl
  | cons c t ih =>
    have hc : rustIsWhitespace c = true := h c (List.mem_cons_self c t)
    simp only [dropWsL, List.cons_append, List.dropWhile_cons, hc, if_true]
    exact ih (fun x hx => h x (List.mem_cons_of_mem c hx))

theorem dropWsL_append_of_ne (l m : List Char) (h : dropWsL l ≠ []) :
    dropWsL (l ++ m) = dropWsL l ++ m := by
  induction l with
  | nil => exact absurd rfl h
  | cons c t ih =>
    cases hc : rustIsWhitespace c with
    | true =>
      have heq : dropWsL (c :: t) = dropWsL t := by
        simp only [dropWsL, List.dropWhile_cons, hc, if_true]
      have h2 : dropWsL t ≠ [] := by
        rw [heq] at h
        exact h
      simp only [dropWsL, List.cons_append, List.dropWhile_cons, hc, if_true]
      exact ih h2
    | false =>
      simp [dropWsL, List.cons_append, List.dropWhile_cons, hc]

theorem dropWsL_eq_nil_iff (l : List Char) :
    dropWsL l = [] ↔ ∀ c ∈ l, rustIsWhitespace c = true := by
  simp [dropWsL]

theorem dropWsL_idem (l : List Char) : dropWsL (dropWsL l) = dropWsL l := by
  induction l with
  | nil => rfl
  | cons c t ih =>
    cases hc : rustIsWhitespace c with
    | true => simp only [dropWsL, List.dropWhile_cons, hc, if_true] at ih ⊢; exact ih
    | false => simp [dropWsL, List.dropWhile_cons, hc]

theorem dropWsR_ws_append (l b : List Char)
    (h : ∀ c ∈ b, rustIsWhitespace c = true) : dropWsR (l ++ b) = dropWsR l := by
  simp only [dropWsR, List.reverse_append]
  rw [dropWsL_ws_append]
  intro c hc
  exact h c (List.mem_reverse.mp hc)

theorem dropWsR_append_of_ne (a s : List Char) (h : dropWsR s ≠ []) :
    dropWsR (a ++ s) = a ++ dropWsR s := by
  have h2 : dropWsL s.reverse ≠ [] := by
    intro hnil
    apply h
    simp [dropWsR, hnil]
  simp only [dropWsR, List.reverse_append]
  rw [dropWsL_append_of_ne _ _ h2]
  simp

theorem all_ws_of_dropWsR_nil (s : List Char) (h : dropWsR s = []) :
    ∀ c ∈ s, rustIsWhitespace c = true := by
  have h2 : dropWsL s.reverse = [] := by
    have := congrArg List.reverse h
    simpa [dropWsR] using this
  intro c hc
  exact (dropWsL_eq_nil_iff s.reverse).mp h2 c (List.mem_reverse.mpr hc)

theorem trimChars_pad (a s b : List Char)
    (ha : ∀ c ∈ a, rustIsWhitespace c = true)
    (hb : ∀ c ∈ b, rustIsWhitespace c = true) :
    trimChars ((a ++ s) ++ b) = trimChars s := by
  unfold trimChars
  rw [dropWsR_ws_append _ _ hb]
  by_cases h : dropWsR s = []
  · have hs : ∀ c ∈ s, rustIsWhitespace c = true := all_ws_of_dropWsR_nil s h
    have has : ∀ c ∈ a ++ s, rustIsWhitespace c = true := by
      intro c hc
      rcases List.mem_append.mp hc with hc2 | hc2
      · exact ha c hc2
      · exact hs c hc2
    have h2 : dropWsR (a ++ s) = [] := by
      unfold dropWsR
      rw [List.reverse_append]
      rw [dropWsL_ws_append _ _ (fun c hc => hs c (List.mem_reverse.mp hc))]
      rw [(dropWsL_eq_nil_iff _).mpr (fun c hc => ha c (List.mem_reverse.mp hc))]
      rfl
    rw [h2, h]
  · rw [dropWsR_append_of_ne _ _ h]
    exact dropWsL_ws_append a _ ha

theorem rustTrim_pad (r p : String) (h : IsWsPad r p) : rustTrim p = rustTrim r := by
  obtain ⟨a, b, ha, hb, rfl⟩ := h
  unfold rustTrim
  congr 1
  have hd : ((a ++ r) ++ b).data = (a.data ++ r.data) ++ b.data := by
    rw [str_data_append, str_data_append]
  rw [hd]
  exact trimChars_pad a.data r.data b.data ha hb

theorem trimChars_idem (l : List Char) : trimChars (trimChars l) = trimChars l := by
  unfold trimChars
  have hrev : (dropWsR l).reverse = dropWsL l.reverse := by
    simp [dropWsR]
  have hdl : dropWsL ((dropWsR l).reverse) = (dropWsR l).reverse := by
    rw [hrev]
    exact dropWsL_idem l.reverse
  have key : dropWsR (dropWsL (dropWsR l)) = dropWsL (dropWsR l) := by
    cases hm : dropWsL (dropWsR l) with
    | nil => simp [dropWsR, dropWsL, hm]
    | cons c t =>
      have hsplit : List.takeWhile rustIsWhitespace (dropWsR l) ++
          dropWsL (dropWsR l) = dropWsR l :=
        List.takeWhile_append_dropWhile rustIsWhitespace (dropWsR l)
      rw [hm] at hsplit
      cases hrl : (c :: t).reverse with
      | nil => simp at hrl
      | cons d u =>
        have hrevm : (dropWsR l).reverse =
            d :: (u ++ (List.takeWhile rustIsWhitespace (dropWsR l)).reverse) := by
          have h4 := congrArg List.reverse hsplit
          rw [List.reverse_append, hrl] at h4
          rw [← h4]
          simp
        have hd : rustIsWhitespace d = false := by
          cases hdws : rustIsWhitespace d with
          | false => rfl
          | true =>
            exfalso
            have h3 := hdl
            rw [hrevm] at h3
            simp only [dropWsL, List.dropWhile_cons, hdws, if_true] at h3
            have hlen := congrArg List.length h3
            have happ := congrArg List.length
              (List.takeWhile_append_dropWhile rustIsWhitespace
                (u ++ (List.takeWhile rustIsWhitespace (dropWsR l)).reverse))
            simp only [List.length_append, List.length_cons] at hlen happ
            omega
        unfold dropWsR
        rw [hrl]
        unfold dropWsL
        rw [List.dropWhile_cons, hd]
        simp only [Bool.false_eq_true, if_false]
        rw [← hrl]
        simp
  rw [key]
  exact dropWsL_idem (dropWsR l)

theorem rustTrim_idem (s : String) : rustTrim (rustTrim s) = rustTrim s :=
  congrArg String.mk (trimChars_idem s.data)

theorem map_rustTrim_of_pads {R Rpad : List String}
    (h : List.Forall₂ IsWsPad R Rpad) : Rpad.map rustTrim = R.map rustTrim := by
  induction h with
  | nil => rfl
  | cons h1 _ ih => simp [rustTrim_pad _ _ h1, ih]

theorem bytesOfChars_acc (l : List Char) : ∀ acc : List Nat,
    l.foldr (fun c acc => utf8Bytes c ++ acc) acc = bytesOfChars l ++ acc := by
  induction l with
  | nil => intro acc; simp [bytesOfChars]
  | cons c t ih =>
    intro acc
    rw [List.foldr_cons, ih acc]
    have h2 : bytesOfChars (c :: t) = utf8Bytes c ++ bytesOfChars t := by
      unfold bytesOfChars
      rw [List.foldr_cons]
    rw [h2, List.append_assoc]

theorem bytesOfChars_append (l1 l2 : List Char) :
    bytesOfChars (l1 ++ l2) = bytesOfChars l1 ++ bytesOfChars l2 := by
  unfold bytesOfChars
  rw [List.foldr_append]
  exact bytesOfChars_acc l1 _

theorem strBytes_append (a b : String) :
    strBytes (a ++ b) = strBytes a ++ strBytes b := by
  simp [strBytes, str_data_append, bytesOfChars_append]

theorem solveKeyBytes_foldl (reqs : List String) : ∀ acc : List Nat,
    reqs.foldl (fun acc r => acc ++ strBytes r ++ [124]) acc =
      acc ++ reqs.foldr (fun r acc2 => strBytes r ++ [124] ++ acc2) [] := by
  induction reqs with
  | nil => intro acc; simp
  | cons r rest ih =>
    intro acc
    rw [List.foldl_cons, ih]
    simp [List.append_assoc]

/-! ## Claim theorems -/

/-- Claim C4: for every interpreter version v and requirement list R,
the solve key computed by the install pipeline, namely
solve_key applied to normalize_requirements, is invariant under any
permutation of R and under adding redundant (leading or trailing)
whitespace to each requirement in R. S is R with each element
whitespace-padded (witnessed by the Forall₂) and then permuted. -/
theorem solve_key_invariant (sha1hex : List Nat → String) (v : String)
    (R Rpad S : List String) (hpad : List.Forall₂ IsWsPad R Rpad)
    (hperm : List.Perm S Rpad) :
    solve_key sha1hex v (normalize_requirements S) =
      solve_key sha1hex v (normalize_requirements R) := by
  have h1 : normalize_requirements S = normalize_requirements R := by
    unfold normalize_requirements
    apply sortLe_eq_of_perm strLe strLe_total strLe_trans strLe_antisymm
    have hmap : List.Perm (S.map rustTrim) (R.map rustTrim) := by
      have h2 := hperm.map rustTrim
      rw [map_rustTrim_of_pads hpad] at h2
      exact h2
    exact hmap.filter _
  rw [h1]

/-- Witness for C4 at a concrete instance: requirements in a different
order with extra whitespace produce the same solve key. -/
theorem solve_key_invariant_witness :
    solve_key (fun bs => String.mk (bs.map Char.ofNat)) "3.12"
      (normalize_requirements [" a==1.0  ", "b"]) =
    solve_key (fun bs => String.mk (bs.map Char.ofNat)) "3.12"
      (normalize_requirements ["b", "a==1.0"]) :=
  solve_key_invariant _ "3.12" ["b", "a==1.0"] ["b", " a==1.0  "]
    [" a==1.0  ", "b"]
    (List.Forall₂.cons ⟨"", "", by simp, by simp, by decide⟩
      (List.Forall₂.cons ⟨" ", "  ", by decide, by decide, by decide⟩
        List.Forall₂.nil))
    (by decide)

/-- Claim C5: solve_key v reqs is the (lowercase hex, supplied by the
sha1hex parameter) SHA-1 of the byte string v followed by a pipe, then
each requirement followed by a pipe; in particular for version 3.12 and
requirements a==1.0 and b the hashed bytes are those of
3.12|a==1.0|b| . -/
theorem solve_key_formula (sha1hex : List Nat → String) :
    (∀ (v : String) (reqs : List String),
      solve_key sha1hex v reqs =
        sha1hex (strBytes (v ++ "|" ++ concatStrings (reqs.map (fun r => r ++ "|"))))) ∧
    solve_key sha1hex "3.12" ["a==1.0", "b"] = sha1hex (strBytes "3.12|a==1.0|b|") := by
  have key : ∀ (v : String) (reqs : List String),
      solveKeyBytes v reqs =
        strBytes (v ++ "|" ++ concatStrings (reqs.map (fun r => r ++ "|"))) := by
    intro v reqs
    have hX : strBytes (concatStrings (reqs.map (fun r => r ++ "|"))) =
        reqs.foldr (fun r acc2 => strBytes r ++ [124] ++ acc2) [] := by
      induction reqs with
      | nil => rfl
      | cons r rest ih =>
        simp only [List.map_cons, concatStrings, strBytes_append, ih]
        have hp : strBytes "|" = [124] := by decide
        simp [strBytes_append, hp, List.append_assoc]
    rw [strBytes_append, strBytes_append]
    have hp : strBytes "|" = [124] := by decide
    rw [hp, hX]
    unfold solveKeyBytes
    rw [solveKeyBytes_foldl]
  constructor
  · intro v reqs
    unfold solve_key
    rw [key]
  · unfold solve_key
    rw [key]
    exact congrArg sha1hex (by decide)

/-- Counterexample for claim C6: normalize_requirements does not
deduplicate, so the normalized list for input [a, a] contains a
duplicate entry, contradicting the claim that it contains no
duplicates. -/
theorem normalize_requirements_keeps_duplicates :
    normalize_requirements ["a", "a"] = ["a", "a"] ∧
      ¬ (normalize_requirements ["a", "a"]).Nodup := by
  constructor
  · decide
  · decide

/-- Claim C6 as amended: the normalized requirement list used by
install is trimmed, free of empty strings, and sorted; it is not
deduplicated (duplicate inputs survive, see the counterexample). -/
theorem normalize_requirements_props (reqs : List String) :
    (∀ r ∈ normalize_requirements reqs, rustTrim r = r) ∧
    (∀ r ∈ normalize_requirements reqs, r ≠ "") ∧
    (normalize_requirements reqs).Pairwise (fun a b => strLe a b = true) := by
  refine ⟨?_, ?_, sortLe_pairwise strLe strLe_total strLe_trans _⟩
  · intro r hr
    have hr2 : r ∈ (reqs.map rustTrim).filter (fun r => r != "") :=
      (sortLe_perm strLe _).mem_iff.mp hr
    have hr3 : r ∈ reqs.map rustTrim := (List.mem_filter.mp hr2).1
    obtain ⟨x, _, rfl⟩ := List.mem_map.mp hr3
    exact rustTrim_idem x
  · intro r hr
    have hr2 : r ∈ (reqs.map rustTrim).filter (fun r => r != "") :=
      (sortLe_perm strLe _).mem_iff.mp hr
    have hcond := (List.mem_filter.mp hr2).2
    simpa using hcond

/-- Witness for the amended C6 at a concrete input. -/
theorem normalize_requirements_props_witness :
    rustTrim "a" = "a" ∧ ("a" : String) ≠ "" :=
  ⟨(normalize_requirements_props ["  b", "a  "]).1 "a" (by decide),
   (normalize_requirements_props ["  b", "a  "]).2.1 "a" (by decide)⟩

set_option maxHeartbeats 1000000 in
/-- Claim C9: a project named " My Tool_v2 " with autoprovision enabled
and an empty environment name makes the runtime selector synthesize the
env_name auto-my-tool-v2 through the slug rules (lowercase, spaces and
underscores to hyphens, strip characters outside lowercase
alphanumerics and hyphen, trim hyphens, default when empty), record it
in the manifest, and report the manifest as mutated, whatever the other
manifest fields and the working-directory leaf are. -/
theorem ensure_runtime_autoprovision_slug (pv : String)
    (deps : List (String × String)) (cm cgd : String) (wdLeaf : Option String) :
    ensure_runtime_venv_selection
        (Config.mk " My Tool_v2 " pv deps cm cgd "" true) wdLeaf =
      ("auto-my-tool-v2",
       Config.mk " My Tool_v2 " pv deps cm cgd "auto-my-tool-v2" true, true) := rfl

/-- Counterexample for claim C8: a manifest whose interpreter version
is the non-empty malformed string abc is saved unchanged by
save_project, and that string does not parse into two unsigned
integers. -/
theorem save_project_keeps_malformed_version :
    (save_project (some "p") "cachedir"
        (Config.mk "proj" "abc" [] "global-cas" "g" "" false)).python_version = "abc" ∧
    parse_major_minor "abc" = none := by
  exact ⟨rfl, by decide⟩

/-- Claim C8 as amended: after every save, every string field that was
empty (after trimming) has been rewritten to its canonical default, and
when the interpreter version was empty the saved default parses into
the two unsigned integers 3 and 12; a non-empty malformed version
string is saved unchanged and need not parse (see the counterexample).
The environment name's canonical default is the empty string, so it is
carried through unchanged, as are the dependencies and flags. -/
theorem save_project_normalizes (leaf : Option String) (dir : String) (cfg : Config) :
    (rustTrim cfg.project_name = "" →
      (save_project leaf dir cfg).project_name = leaf.getD "project") ∧
    (rustTrim cfg.python_version = "" →
      (save_project leaf dir cfg).python_version = default_python_version ∧
        parse_major_minor (save_project leaf dir cfg).python_version = some (3, 12)) ∧
    (rustTrim cfg.cache_mode = "" →
      (save_project leaf dir cfg).cache_mode = default_cache_mode) ∧
    (rustTrim cfg.cache_global_dir = "" →
      (save_project leaf dir cfg).cache_global_dir = dir) ∧
    (save_project leaf dir cfg).venv_name = cfg.venv_name ∧
    (save_project leaf dir cfg).autovenv = cfg.autovenv ∧
    (save_project leaf dir cfg).deps = cfg.deps := by
  refine ⟨?_, ?_, ?_, ?_, rfl, rfl, rfl⟩
  · intro h
    show (if rustTrim cfg.project_name = "" then leaf.getD "project"
      else cfg.project_name) = leaf.getD "project"
    rw [if_pos h]
  · intro h
    constructor
    · show (if rustTrim cfg.python_version = "" then default_python_version
        else cfg.python_version) = default_python_version
      rw [if_pos h]
    · show parse_major_minor (if rustTrim cfg.python_version = "" then
        default_python_version else cfg.python_version) = some (3, 12)
      rw [if_pos h]
      decide
  · intro h
    show (if rustTrim cfg.cache_mode = "" then default_cache_mode
      else cfg.cache_mode) = default_cache_mode
    rw [if_pos h]
  · intro h
    show (if rustTrim cfg.cache_global_dir = "" then dir
      else cfg.cache_global_dir) = dir
    rw [if_pos h]

/-- Witness for the amended C8: an all-empty manifest saved in project
directory proj gets every default, and the default version parses. -/
theorem save_project_normalizes_witness :
    (save_project (some "proj") "cdir"
        (Config.mk "" "" [] "" "" "v" true)).python_version = default_python_version ∧
    parse_major_minor (save_project (some "proj") "cdir"
        (Config.mk "" "" [] "" "" "v" true)).python_version = some (3, 12) ∧
    (save_project (some "proj") "cdir"
        (Config.mk "" "" [] "" "" "v" true)).project_name = "proj" := by
  have h := save_project_normalizes (some "proj") "cdir" (Config.mk "" "" [] "" "" "v" true)
  exact ⟨(h.2.1 (by decide)).1, (h.2.1 (by decide)).2, h.1 (by decide)⟩

theorem assocGet_set_self {α : Type} (l : List (String × α)) (k : String) (v : α) :
    assocGet (assocSet l k v) k = some v := by
  induction l with
  | nil => simp [assocSet, assocGet]
  | cons pr rest ih =>
    obtain ⟨a, b⟩ := pr
    by_cases h : k = a
    · simp [assocSet, assocGet, h]
    · simp [assocSet, assocGet, h, ih]

theorem assocGet_set_ne {α : Type} (l : List (String × α)) (k k2 : String) (v : α)
    (h : k2 ≠ k) : assocGet (assocSet l k v) k2 = assocGet l k2 := by
  induction l with
  | nil => simp [assocSet, assocGet, h]
  | cons pr rest ih =>
    obtain ⟨a, b⟩ := pr
    by_cases h2 : k = a
    · subst h2
      simp [assocSet, assocGet, h]
    · by_cases h3 : k2 = a
      · simp [assocSet, assocGet, h2, h3]
      · simp [assocSet, assocGet, h2, h3, ih]

theorem assocGet_remove_self {α : Type} (l : List (String × α)) (k : String) :
    assocGet (assocRemove l k) k = none := by
  induction l with
  | nil => simp [assocRemove, assocGet]
  | cons pr rest ih =>
    obtain ⟨a, b⟩ := pr
    by_cases h : k = a
    · subst h
      simp [assocRemove, ih]
    · simp [assocRemove, assocGet, h, ih]

theorem assocGet_remove_ne {α : Type} (l : List (String × α)) (k k2 : String)
    (h : k2 ≠ k) : assocGet (assocRemove l k) k2 = assocGet l k2 := by
  induction l with
  | nil => rfl
  | cons pr rest ih =>
    obtain ⟨a, b⟩ := pr
    by_cases h2 : k = a
    · subst h2
      simp [assocRemove, assocGet, h, ih]
    · by_cases h3 : k2 = a
      · simp [assocRemove, assocGet, h2, h3]
      · simp [assocRemove, assocGet, h2, h3, ih]

/-- Claim C1 (with the hypotheses the claim presupposes made explicit:
the expected hash is non-blank, no blob for it is already stored so the
download actually happens, the HTTP status is successful, and the temp
file does not itself sit in the blobs namespace, as the generated temp
names never do): when the downloaded body's SHA-256 differs
case-insensitively from expected, store_blob_from_url fails with a
checksum-mismatch error carrying both hashes, its temp file is absent
afterwards, and the blobs namespace is exactly as before (no file was
added under it). -/
theorem store_blob_checksum_mismatch (sha256 : FileData → String)
    (http : String → Option (Nat × FileData)) (root tmpName : String)
    (fs : Files) (url expected : String) (status : Nat) (body : FileData)
    (h1 : rustTrim expected ≠ "")
    (h2 : fsExists fs (blob_path root expected) = false)
    (h3 : http url = some (status, body))
    (h4 : statusIsSuccess status = true)
    (h5 : eqIgnoreAsciiCase expected (sha256 body) = false)
    (h6 : strLeadsWith (blobsNamespace root) (root ++ "/" ++ tmpName) = false) :
    (store_blob_from_url sha256 http root tmpName fs url expected).2 =
        Except.error (XeError.checksumMismatch expected (sha256 body)) ∧
    fsExists (store_blob_from_url sha256 http root tmpName fs url expected).1
        (root ++ "/" ++ tmpName) = false ∧
    (∀ p : String, strLeadsWith (blobsNamespace root) p = true →
      assocGet (store_blob_from_url sha256 http root tmpName fs url expected).1 p =
        assocGet fs p) := by
  have hbne : (rustTrim expected != "") = true := by
    rw [bne_iff_ne]
    exact h1
  have hrun : store_blob_from_url sha256 http root tmpName fs url expected =
      (assocRemove (assocSet fs (root ++ "/" ++ tmpName) body) (root ++ "/" ++ tmpName),
       Except.error (XeError.checksumMismatch expected (sha256 body))) := by
    unfold store_blob_from_url
    rw [h2, h3]
    simp [hbne, h4, h5]
  rw [hrun]
  refine ⟨rfl, ?_, ?_⟩
  · simp [fsExists, assocGet_remove_self]
  · intro p hp
    have hne : p ≠ root ++ "/" ++ tmpName := by
      intro heq
      rw [heq] at hp
      rw [hp] at h6
      exact Bool.true_eq_false.mp h6
    rw [assocGet_remove_ne _ _ _ hne, assocGet_set_ne _ _ _ _ hne]

/-- Witness for C1 at a concrete mismatching download. -/
theorem store_blob_checksum_mismatch_witness :
    (store_blob_from_url (fun _ => "bb") (fun _ => some (200, FileData.raw [1]))
        "r" "t" [] "u" "aa").2 =
      Except.error (XeError.checksumMismatch "aa" "bb") := by
  have h := store_blob_checksum_mismatch (fun _ => "bb")
    (fun _ => some (200, FileData.raw [1])) "r" "t" [] "u" "aa" 200 (FileData.raw [1])
    (by decide) (by decide) rfl (by decide) (by decide) (by decide)
  exact h.1

/-- Counterexample for claim C1: the expected hash consisting of a
single space is a non-empty string that differs (case-insensitively)
from the body's hash, yet store_blob_from_url succeeds and publishes
the blob, because the source skips verification whenever expected is
empty after trimming. -/
theorem store_blob_blank_expected_skips_check :
    (" " : String) ≠ "" ∧
    eqIgnoreAsciiCase " " "aa" = false ∧
    (store_blob_from_url (fun _ => "aa") (fun _ => some (200, FileData.raw [1]))
        "r" "t" [] "u" " ").2 = Except.ok (blob_path "r" "aa") ∧
    fsExists (store_blob_from_url (fun _ => "aa") (fun _ => some (200, FileData.raw [1]))
        "r" "t" [] "u" " ").1 (blob_path "r" "aa") = true := by
  exact ⟨by decide, by decide, by decide, by decide⟩

theorem extract_symflag_irrelevant (site : String) :
    ∀ (es : List ZipEntry) (fs : Files) (flag : Bool),
      extractEntries site (es.map (fun x => ZipEntry.mk x.entryName x.entryData flag)) fs =
        extractEntries site es fs := by
  intro es
  induction es with
  | nil =>
    intro fs flag
    rfl
  | cons e rest ih =>
    intro fs flag
    simp only [List.map_cons, extractEntries]
    cases h : enclosedName e.entryName with
    | none => rfl
    | some comps =>
      by_cases h2 : strEndsWith "/" e.entryName = true
      · simp only [h2, if_true]
        exact ih fs flag
      · simp only [h2, Bool.false_eq_true, if_false, if_neg h2]
        exact ih _ flag

theorem extract_safe_append (site : String) :
    ∀ (pre : List ZipEntry) (fs : Files),
      (∀ x ∈ pre, (enclosedName x.entryName).isSome = true) →
      (extractEntries site pre fs).2 = Except.ok () ∧
      ∀ tail, extractEntries site (pre ++ tail) fs =
        extractEntries site tail (extractEntries site pre fs).1 := by
  intro pre
  induction pre with
  | nil =>
    intro fs _
    exact ⟨rfl, fun tail => rfl⟩
  | cons e rest ih =>
    intro fs hpre
    have he : (enclosedName e.entryName).isSome = true :=
      hpre e (List.mem_cons_self e rest)
    obtain ⟨comps, hc⟩ := Option.isSome_iff_exists.mp he
    have hrest : ∀ x ∈ rest, (enclosedName x.entryName).isSome = true :=
      fun x hx => hpre x (List.mem_cons_of_mem e hx)
    by_cases hslash : strEndsWith "/" e.entryName = true
    · have hstep : ∀ (fs2 : Files) (tail2 : List ZipEntry),
          extractEntries site (e :: tail2) fs2 = extractEntries site tail2 fs2 := by
        intro fs2 tail2
        simp only [extractEntries, hc, hslash, if_true]
      constructor
      · rw [hstep fs rest]
        exact (ih fs hrest).1
      · intro tail
        rw [List.cons_append, hstep fs (rest ++ tail), (ih fs hrest).2 tail,
          hstep fs rest]
    · have hstep : ∀ (fs2 : Files) (tail2 : List ZipEntry),
          extractEntries site (e :: tail2) fs2 = extractEntries site tail2
            (assocSet fs2 (site ++ "/" ++ joinPath comps)
              (FileData.raw e.entryData)) := by
        intro fs2 tail2
        simp only [extractEntries, hc]
        rw [if_neg hslash]
      constructor
      · rw [hstep fs rest]
        exact (ih _ (by exact hrest)).1
      · intro tail
        rw [List.cons_append, hstep fs (rest ++ tail), (ih _ hrest).2 tail,
          hstep fs rest]

/-- Claim C3 as amended: when an archive contains an entry whose path
escapes the target root (absolute, parent-directory components
climbing above the root, or a NUL byte), install_wheel_blob fails at
the first such entry with an unsafe-entry error, and the site
directory holds exactly the files of the accepted entries extracted
before it: entries at or after the escaping entry are never written,
but earlier entries already are. Balanced interior parent-directory
components do not escape and are accepted rather than refused (middle
conjunct), and symbolic-link entries are not refused either: the
symlink flag never influences extraction (last conjunct). -/
theorem install_wheel_blob_refuses_at_first_bad_entry (site blobPath : String)
    (fs : Files) (pre : List ZipEntry) (e : ZipEntry) (rest : List ZipEntry)
    (hblob : assocGet fs blobPath = some (FileData.zipData (pre ++ e :: rest)))
    (hpre : ∀ x ∈ pre, (enclosedName x.entryName).isSome = true)
    (he : enclosedName e.entryName = none) :
    install_wheel_blob fs blobPath site =
      ((extractEntries site pre fs).1,
        Except.error (XeError.unsafeWheelEntry e.entryName)) ∧
    enclosedName "a/../b" = some ["b"] ∧
    (∀ (fs2 : Files) (es : List ZipEntry) (flag : Bool),
      extractEntries site (es.map (fun x => ZipEntry.mk x.entryName x.entryData flag)) fs2 =
        extractEntries site es fs2) := by
  refine ⟨?_, by decide, ?_⟩
  · have h1 : install_wheel_blob fs blobPath site =
        extractEntries site (pre ++ e :: rest) fs := by
      unfold install_wheel_blob
      rw [hblob]
    rw [h1, (extract_safe_append site pre fs hpre).2 (e :: rest)]
    simp only [extractEntries, he]
  · intro fs2 es flag
    exact extract_symflag_irrelevant site es fs2 flag

/-- Witness for the amended C3 at a concrete archive: a safe entry
followed by a traversal entry. -/
theorem install_wheel_blob_refuses_witness :
    install_wheel_blob
        [("b", FileData.zipData
          [ZipEntry.mk "ok.txt" [1] false, ZipEntry.mk "../e" [2] true])] "b" "site" =
      ((extractEntries "site" [ZipEntry.mk "ok.txt" [1] false]
          [("b", FileData.zipData
            [ZipEntry.mk "ok.txt" [1] false, ZipEntry.mk "../e" [2] true])]).1,
        Except.error (XeError.unsafeWheelEntry "../e")) :=
  (install_wheel_blob_refuses_at_first_bad_entry "site" "b"
    [("b", FileData.zipData
      [ZipEntry.mk "ok.txt" [1] false, ZipEntry.mk "../e" [2] true])]
    [ZipEntry.mk "ok.txt" [1] false] (ZipEntry.mk "../e" [2] true) []
    (by decide) (by decide) (by decide)).1

/-- Counterexample for claim C3: an archive whose first entry is safe
and whose second entry escapes through a parent-directory component is
refused only when the unsafe entry is reached: after the failure the
first entry's file already exists in the site directory, so the archive
was not refused before any of its files was created. -/
theorem install_wheel_blob_writes_before_refusal :
    (install_wheel_blob
        [("blob", FileData.zipData
          [ZipEntry.mk "ok.txt" [1] false, ZipEntry.mk "../evil.txt" [2] false])]
        "blob" "site").2 =
      Except.error (XeError.unsafeWheelEntry "../evil.txt") ∧
    fsExists (install_wheel_blob
        [("blob", FileData.zipData
          [ZipEntry.mk "ok.txt" [1] false, ZipEntry.mk "../evil.txt" [2] false])]
        "blob" "site").1 "site/ok.txt" = true := by
  exact ⟨by decide, by decide⟩

theorem install_empty_case (env : InstallEnv) (root v : String) (w : World)
    (reqsIn : List String) (proj site : String)
    (h : normalize_requirements reqsIn = []) :
    install env root v w reqsIn proj site =
      InstallResult.mk w [] none none (Except.ok []) := by
  simp only [install]
  rw [if_pos h]

theorem install_hit_case (env : InstallEnv) (root v : String) (w : World)
    (reqsIn : List String) (proj site : String) (g : SolveGraph)
    (hne : normalize_requirements reqsIn ≠ [])
    (hhit : load_solution w
      (solve_key env.sha1hex v (normalize_requirements reqsIn)) = some g) :
    install env root v w reqsIn proj site =
      installFinish env root w [] g proj site := by
  simp only [install]
  rw [if_neg hne, hhit]

theorem install_miss_err_case (env : InstallEnv) (root v : String) (w : World)
    (reqsIn : List String) (proj site : String) (err : XeError)
    (hne : normalize_requirements reqsIn ≠ [])
    (hmiss : load_solution w
      (solve_key env.sha1hex v (normalize_requirements reqsIn)) = none)
    (hres : resolveAll env.resolver (normalize_requirements reqsIn) =
      Except.error err) :
    install env root v w reqsIn proj site =
      InstallResult.mk w (normalize_requirements reqsIn) none none
        (Except.error err) := by
  simp only [install]
  rw [if_neg hne, hmiss, hres]

theorem install_miss_ok_case (env : InstallEnv) (root v : String) (w : World)
    (reqsIn : List String) (proj site : String) (flat : List Package)
    (hne : normalize_requirements reqsIn ≠ [])
    (hmiss : load_solution w
      (solve_key env.sha1hex v (normalize_requirements reqsIn)) = none)
    (hres : resolveAll env.resolver (normalize_requirements reqsIn) =
      Except.ok flat) :
    install env root v w reqsIn proj site =
      installFinish env root
        (save_solution w (solve_key env.sha1hex v (normalize_requirements reqsIn))
          (SolveGraph.mk v (normalize_requirements reqsIn) (dedupe_packages flat)))
        (normalize_requirements reqsIn)
        (SolveGraph.mk v (normalize_requirements reqsIn) (dedupe_packages flat))
        proj site := by
  simp only [install]
  rw [if_neg hne, hmiss, hres]

theorem finishResult_ok (g : SolveGraph) (r : Except XeError Unit)
    (ps : List Package) (h : finishResult g r = Except.ok ps) :
    ps = sortLe pkgNameLe g.packages := by
  cases r with
  | ok u =>
    simp only [finishResult] at h
    exact (Except.ok.inj h).symm
  | error e =>
    simp only [finishResult] at h
    exact absurd h (by simp)

theorem installFinish_targetSite_empty (env : InstallEnv) (root : String)
    (w : World) (calls : List String) (g : SolveGraph) (proj : String) :
    (installFinish env root w calls g proj "").targetSite =
      some (proj ++ "/xe/site-packages") := by
  show some (if ("" : String) = "" then proj ++ "/xe/site-packages" else "") = _
  rw [if_pos rfl]

theorem assocGet_set_cases {α : Type} (l : List (String × α)) (k : String)
    (v : α) (k2 : String) (v2 : α)
    (h : assocGet (assocSet l k v) k2 = some v2) :
    (k2 = k ∧ v2 = v) ∨ assocGet l k2 = some v2 := by
  by_cases hk : k2 = k
  · subst hk
    rw [assocGet_set_self] at h
    exact Or.inl ⟨rfl, (Option.some.inj h).symm⟩
  · rw [assocGet_set_ne _ _ _ _ hk] at h
    exact Or.inr h

theorem install_usedGraph_persisted (env : InstallEnv) (root v : String)
    (w : World) (reqsIn : List String) (proj site : String) (g : SolveGraph)
    (h : (install env root v w reqsIn proj site).usedGraph = some g) :
    load_solution (install env root v w reqsIn proj site).world
      (solve_key env.sha1hex v (normalize_requirements reqsIn)) = some g ∧
    normalize_requirements reqsIn ≠ [] := by
  by_cases hne : normalize_requirements reqsIn = []
  · rw [install_empty_case env root v w reqsIn proj site hne] at h
    exact absurd h (by simp)
  · cases hload : load_solution w
        (solve_key env.sha1hex v (normalize_requirements reqsIn)) with
    | some cached =>
      rw [install_hit_case env root v w reqsIn proj site cached hne hload] at h ⊢
      have hcg : cached = g := by
        have h2 : some cached = some g := h
        exact Option.some.inj h2
      subst hcg
      exact ⟨hload, hne⟩
    | none =>
      cases hres : resolveAll env.resolver (normalize_requirements reqsIn) with
      | error e =>
        rw [install_miss_err_case env root v w reqsIn proj site e hne hload hres] at h
        exact absurd h (by simp)
      | ok flat =>
        rw [install_miss_ok_case env root v w reqsIn proj site flat hne hload hres] at h ⊢
        have hg : SolveGraph.mk v (normalize_requirements reqsIn)
            (dedupe_packages flat) = g := by
          have h2 : some (SolveGraph.mk v (normalize_requirements reqsIn)
              (dedupe_packages flat)) = some g := h
          exact Option.some.inj h2
        constructor
        · show assocGet (assocSet w.solutions
            (solve_key env.sha1hex v (normalize_requirements reqsIn))
            (SolveGraph.mk v (normalize_requirements reqsIn)
              (dedupe_packages flat)))
            (solve_key env.sha1hex v (normalize_requirements reqsIn)) = some g
          rw [assocGet_set_self, hg]
        · exact hne

/-- Claim C2: when load_solution for the computed solve key returns a
stored graph, install uses that graph (its download plan and returned
packages come from it, sorted by name) and never invokes the resolver;
moreover any run that obtained a graph leaves the solution stored, so
an identical second run performs no resolver call: resolution happens
at most once across two identical runs. -/
theorem install_uses_memoized_graph (env : InstallEnv) (root v : String)
    (w : World) (reqsIn : List String) (proj site : String) (g : SolveGraph)
    (hne : normalize_requirements reqsIn ≠ [])
    (hhit : load_solution w
      (solve_key env.sha1hex v (normalize_requirements reqsIn)) = some g) :
    (install env root v w reqsIn proj site).resolverCalls = [] ∧
    (install env root v w reqsIn proj site).usedGraph = some g ∧
    (install env root v w reqsIn proj site).world.solutions = w.solutions ∧
    (∀ ps, (install env root v w reqsIn proj site).result = Except.ok ps →
      ps = sortLe pkgNameLe g.packages) ∧
    (∀ (w2 : World) (g2 : SolveGraph),
      (install env root v w2 reqsIn proj site).usedGraph = some g2 →
      (install env root v (install env root v w2 reqsIn proj site).world
        reqsIn proj site).resolverCalls = []) := by
  rw [install_hit_case env root v w reqsIn proj site g hne hhit]
  refine ⟨rfl, rfl, rfl, ?_, ?_⟩
  · intro ps hps
    exact finishResult_ok g _ ps hps
  · intro w2 g2 hused
    obtain ⟨hload2, hne2⟩ := install_usedGraph_persisted env root v w2 reqsIn
      proj site g2 hused
    rw [install_hit_case env root v (install env root v w2 reqsIn proj site).world
      reqsIn proj site g2 hne2 hload2]
    rfl

/-- Witness for C2: a world already holding the solution for the key;
install makes no resolver call even though the resolver always fails. -/
theorem install_uses_memoized_graph_witness :
    (install failingResolverEnv "r" "3.12"
      (World.mk [("K", SolveGraph.mk "3.12" ["a"] [])] []) ["a"] "p" "s").resolverCalls =
      [] :=
  (install_uses_memoized_graph failingResolverEnv "r" "3.12"
    (World.mk [("K", SolveGraph.mk "3.12" ["a"] [])] []) ["a"] "p" "s"
    (SolveGraph.mk "3.12" ["a"] []) (by decide) (by decide)).1

theorem strLt_trans (a b c : String) (h1 : strLt a b = true)
    (h2 : strLt b c = true) : strLt a c = true :=
  lexLt_trans _ _ _ h1 h2

theorem strLt_connex (a b : String) (h1 : strLt a b = false) (h2 : a ≠ b) :
    strLt b a = true := by
  cases h3 : strLt b a with
  | true => rfl
  | false => exact absurd (string_eq_of_data_eq (lexLt_eq_of_not _ _ h1 h3)) h2

theorem btInsert_mem (k : String) (v : Package) :
    ∀ (m : List (String × Package)) (x : String × Package),
      x ∈ btInsert k v m → x = (k, v) ∨ x ∈ m := by
  intro m
  induction m with
  | nil =>
    intro x hx
    simp only [btInsert] at hx
    rcases List.mem_singleton.mp hx with h
    exact Or.inl h
  | cons pr rest ih =>
    intro x hx
    obtain ⟨a, b⟩ := pr
    simp only [btInsert] at hx
    by_cases h1 : strLt k a = true
    · rw [if_pos h1] at hx
      rcases List.mem_cons.mp hx with h | h
      · exact Or.inl h
      · exact Or.inr h
    · rw [if_neg h1] at hx
      by_cases h2 : k = a
      · rw [if_pos h2] at hx
        rcases List.mem_cons.mp hx with h | h
        · exact Or.inl h
        · exact Or.inr (List.mem_cons_of_mem _ h)
      · rw [if_neg h2] at hx
        rcases List.mem_cons.mp hx with h | h
        · exact Or.inr (h ▸ List.mem_cons_self (a, b) rest)
        · rcases ih x h with h3 | h3
          · exact Or.inl h3
          · exact Or.inr (List.mem_cons_of_mem _ h3)

theorem btInsert_pairwise (k : String) (v : Package) :
    ∀ m : List (String × Package),
      m.Pairwise (fun x y => strLt x.1 y.1 = true) →
      (btInsert k v m).Pairwise (fun x y => strLt x.1 y.1 = true) := by
  intro m
  induction m with
  | nil =>
    intro _
    simp [btInsert]
  | cons pr rest ih =>
    intro hp
    obtain ⟨a, b⟩ := pr
    rw [List.pairwise_cons] at hp
    obtain ⟨ha, hrest⟩ := hp
    simp only [btInsert]
    by_cases h1 : strLt k a = true
    · rw [if_pos h1, List.pairwise_cons]
      constructor
      · intro x hx
        rcases List.mem_cons.mp hx with h | h
        · rw [h]
          exact h1
        · exact strLt_trans k a x.1 h1 (ha x h)
      · rw [List.pairwise_cons]
        exact ⟨ha, hrest⟩
    · by_cases h2 : k = a
      · rw [if_neg h1, if_pos h2, List.pairwise_cons]
        constructor
        · intro x hx
          rw [h2]
          exact ha x hx
        · exact hrest
      · rw [if_neg h1, if_neg h2, List.pairwise_cons]
        constructor
        · intro x hx
          rcases btInsert_mem k v rest x hx with h3 | h3
          · rw [h3]
            have h1f : strLt k a = false := by
              cases hx2 : strLt k a with
              | false => rfl
              | true => exact absurd hx2 h1
            exact strLt_connex k a h1f h2
          · exact ha x h3
        · exact ih hrest

theorem btInsert_keys (k : String) (v : Package) (hkey : k = pkgDedupKey v) :
    ∀ m : List (String × Package),
      (∀ pr ∈ m, pr.1 = pkgDedupKey pr.2) →
      ∀ pr ∈ btInsert k v m, pr.1 = pkgDedupKey pr.2 := by
  intro m hm pr hpr
  rcases btInsert_mem k v m pr hpr with h | h
  · rw [h]
    exact hkey
  · exact hm pr h

theorem dedupe_foldl_sorted :
    ∀ (pkgs : List Package) (m : List (String × Package)),
      m.Pairwise (fun x y => strLt x.1 y.1 = true) →
      (pkgs.foldl (fun m p => btInsert (pkgDedupKey p) p m) m).Pairwise
        (fun x y => strLt x.1 y.1 = true) := by
  intro pkgs
  induction pkgs with
  | nil =>
    intro m hm
    exact hm
  | cons p rest ih =>
    intro m hm
    exact ih _ (btInsert_pairwise _ _ m hm)

theorem dedupe_foldl_keys :
    ∀ (pkgs : List Package) (m : List (String × Package)),
      (∀ pr ∈ m, pr.1 = pkgDedupKey pr.2) →
      ∀ pr ∈ pkgs.foldl (fun m p => btInsert (pkgDedupKey p) p m) m,
        pr.1 = pkgDedupKey pr.2 := by
  intro pkgs
  induction pkgs with
  | nil =>
    intro m hm
    exact hm
  | cons p rest ih =>
    intro m hm
    exact ih _ (btInsert_keys _ _ rfl m hm)

theorem dedupe_packages_key_sorted (pkgs : List Package) :
    (dedupe_packages pkgs).Pairwise
      (fun p q => strLt (pkgDedupKey p) (pkgDedupKey q) = true) := by
  unfold dedupe_packages
  have hsorted := dedupe_foldl_sorted pkgs [] (by simp)
  have hkeys := dedupe_foldl_keys pkgs [] (by simp)
  rw [List.pairwise_map]
  refine hsorted.imp_of_mem ?_
  intro a b ha hb hr
  rw [← hkeys a ha, ← hkeys b hb]
  exact hr

/-- Claim C7 as amended: every resolution graph persisted by install is
sorted strictly by the deduplication key (lowercased name, two equals
signs, version) rather than by the raw package name: provided every
graph already stored satisfies this, every graph stored after an
install run does too (the freshly persisted graph is the dedupe_packages
output, which is in BTreeMap key order). -/
theorem install_persisted_graphs_key_sorted (env : InstallEnv) (root v : String)
    (w : World) (reqsIn : List String) (proj site : String)
    (hw : ∀ (k : String) (g : SolveGraph), assocGet w.solutions k = some g →
      g.packages.Pairwise (fun p q => strLt (pkgDedupKey p) (pkgDedupKey q) = true)) :
    ∀ (k : String) (g : SolveGraph),
      assocGet (install env root v w reqsIn proj site).world.solutions k = some g →
      g.packages.Pairwise (fun p q => strLt (pkgDedupKey p) (pkgDedupKey q) = true) := by
  intro k g hget
  by_cases hne : normalize_requirements reqsIn = []
  · rw [install_empty_case env root v w reqsIn proj site hne] at hget
    exact hw k g hget
  · cases hload : load_solution w
        (solve_key env.sha1hex v (normalize_requirements reqsIn)) with
    | some cached =>
      rw [install_hit_case env root v w reqsIn proj site cached hne hload] at hget
      exact hw k g hget
    | none =>
      cases hres : resolveAll env.resolver (normalize_requirements reqsIn) with
      | error e =>
        rw [install_miss_err_case env root v w reqsIn proj site e hne hload hres] at hget
        exact hw k g hget
      | ok flat =>
        rw [install_miss_ok_case env root v w reqsIn proj site flat hne hload hres] at hget
        have hget2 : assocGet (assocSet w.solutions
            (solve_key env.sha1hex v (normalize_requirements reqsIn))
            (SolveGraph.mk v (normalize_requirements reqsIn)
              (dedupe_packages flat))) k = some g := hget
        rcases assocGet_set_cases _ _ _ _ _ hget2 with ⟨_, hgg⟩ | hold
        · rw [hgg]
          exact dedupe_packages_key_sorted flat
        · exact hw k g hold

/-- Witness for the amended C7: the graph persisted by a concrete run
is sorted by the dedup key. -/
theorem install_persisted_graphs_key_sorted_witness :
    ([Package.mk "a" "1" "" "", Package.mk "B" "1" "" ""].Pairwise
      (fun p q => strLt (pkgDedupKey p) (pkgDedupKey q) = true)) :=
  install_persisted_graphs_key_sorted sampleResolverEnv "r" "3.12"
    (World.mk [] []) ["x"] "p" "s"
    (fun k g h => absurd h (by simp [assocGet])) "K"
    (SolveGraph.mk "3.12" ["x"] [Package.mk "a" "1" "" "", Package.mk "B" "1" "" ""])
    (by decide)

/-- Counterexample for claim C7: a resolver yielding packages named B
and a (same version) makes install persist a graph whose packages field
is ordered a then B by the lowercased dedup key; under the byte-wise
name order of the source (String::cmp, where B sorts before a) that
list is not sorted by name. -/
theorem install_persists_graph_unsorted_by_name :
    assocGet (install sampleResolverEnv "r" "3.12" (World.mk [] [])
        ["x"] "p" "s").world.solutions "K" =
      some (SolveGraph.mk "3.12" ["x"]
        [Package.mk "a" "1" "" "", Package.mk "B" "1" "" ""]) ∧
    ¬ ([Package.mk "a" "1" "" "", Package.mk "B" "1" "" ""].Pairwise
        (fun p q => strLe p.name q.name = true)) := by
  exact ⟨by decide, by decide⟩

/-- Claim C10: whenever install is given the empty string as the site
directory path, every extraction target it computes is
project_dir/xe/site-packages, and a run that obtained a graph proceeds
with that substituted target instead of failing. -/
theorem install_empty_site_dir_substitutes (env : InstallEnv) (root v : String)
    (w : World) (reqsIn : List String) (proj : String) :
    (∀ t, (install env root v w reqsIn proj "").targetSite = some t →
      t = proj ++ "/xe/site-packages") ∧
    (∀ g, (install env root v w reqsIn proj "").usedGraph = some g →
      (install env root v w reqsIn proj "").targetSite =
        some (proj ++ "/xe/site-packages")) := by
  by_cases hne : normalize_requirements reqsIn = []
  · rw [install_empty_case env root v w reqsIn proj "" hne]
    exact ⟨fun t h => absurd h (by simp), fun g h => absurd h (by simp)⟩
  · cases hload : load_solution w
        (solve_key env.sha1hex v (normalize_requirements reqsIn)) with
    | some cached =>
      rw [install_hit_case env root v w reqsIn proj "" cached hne hload]
      constructor
      · intro t h
        rw [installFinish_targetSite_empty] at h
        exact (Option.some.inj h).symm
      · intro g _
        exact installFinish_targetSite_empty env root w [] cached proj
    | none =>
      cases hres : resolveAll env.resolver (normalize_requirements reqsIn) with
      | error e =>
        rw [install_miss_err_case env root v w reqsIn proj "" e hne hload hres]
        exact ⟨fun t h => absurd h (by simp), fun g h => absurd h (by simp)⟩
      | ok flat =>
        rw [install_miss_ok_case env root v w reqsIn proj "" flat hne hload hres]
        constructor
        · intro t h
          rw [installFinish_targetSite_empty] at h
          exact (Option.some.inj h).symm
        · intro g _
          exact installFinish_targetSite_empty env root _ _ _ proj

/-- Witness for C10: a concrete run with an empty site argument targets
project-dir/xe/site-packages. -/
theorem install_empty_site_dir_substitutes_witness :
    (install emptyResolverEnv "r" "3.12" (World.mk [] []) ["x"] "p" "").targetSite =
      some ("p" ++ "/xe/site-packages") :=
  (install_empty_site_dir_substitutes emptyResolverEnv "r" "3.12"
    (World.mk [] []) ["x"] "p").2 (SolveGraph.mk "3.12" ["x"] []) (by decide)

end Xe
